import Mathlib

/-!
Shallow embedding of the two `clip-as-service` server modules
`clip_server/executors/helper.py` and `clip_server/model/tokenization.py`,
together with theorems about the batching, tokenization and ranking logic.

Modelling conventions:
* numpy / torch scalars are rationals (`ℚ`), token ids are naturals;
* `np.exp` and the docarray cosine distance are abstract function
  parameters (they live in external numeric libraries);
* tensors produced by `preprocess_fn` are an abstract type parameter;
* a raising Python call is an `Option`/`Except` returning `none`/`.error`.
-/

namespace ClipServer

/-! ### Tokenization (`clip_server/model/tokenization.py`) -/

/-- Result of a tokenizer call: the `input_ids` and `attention_mask`
matrices, one row per input text. -/
structure TokOut where
  input_ids : List (List Nat)
  attention_mask : List (List Nat)
deriving DecidableEq

/-- Errors a tokenize call can raise. -/
inductive TokErr where
  | runtimeError
  | indexError
deriving DecidableEq

/-- Environment of the external data the tokenizer depends on.  The two
model-family lookup tables are modelled from the spec: the spec says text is
"dispatched by model-family lookup tables", and the tables
`_MULTILINGUALCLIP_MODELS` / `_CNCLIP_MODELS` live in
`clip_server/model/pretrained_models.py`, which is not among the embedded
sources, so their contents stay abstract lists here.  The per-text encoders
of the three external tokenizer backends (HuggingFace `transformers`,
`cn_clip`, and `SimpleTokenizer.encode` with its `<|startoftext|>` /
`<|endoftext|>` ids) are abstract functions. -/
structure TokEnv where
  mling : List String
  cncl : List String
  hfEnc : String → List Nat
  padId : Nat
  cnEnc : String → List Nat
  cnSot : Nat
  cnEot : Nat
  enc : String → List Nat
  sot : Nat
  eot : Nat

/-- Model of the external `transformers` tokenizer call
`self._tokenizer(texts, max_length=cl, return_attention_mask=True,
return_tensors='pt', padding=True, truncation=True)` (tokenization.py lines
56-67): each text is encoded, truncated to at most `cl` tokens, and the
batch is padded to the length of the longest post-truncation sequence in the
batch — `padding=True` means "pad to longest", not "pad to `max_length`". -/
def hfTokenize (E : TokEnv) (cl : Nat) (texts : List String) : TokOut :=
  let seqs := texts.map (fun t => (E.hfEnc t).take cl)
  let longest := (seqs.map List.length).foldr max 0
  { input_ids := seqs.map (fun s => s ++ List.replicate (longest - s.length) E.padId)
    attention_mask :=
      seqs.map (fun s => List.replicate s.length 1 ++ List.replicate (longest - s.length) 0) }

/-- Model of the external `cn_clip` call
`self._tokenizer.tokenize(texts=texts, context_length=52)` plus the mask
construction of tokenization.py lines 68-78: each text becomes
`[sot] + encode(text)[:cl-2] + [eot]` zero-padded to length `cl`, and the
attention mask marks the nonzero entries (`result != 0`). -/
def cnTokenize (E : TokEnv) (cl : Nat) (texts : List String) : TokOut :=
  let rows :=
    texts.map (fun t =>
      let s := [E.cnSot] ++ (E.cnEnc t).take (cl - 2) ++ [E.cnEot]
      s ++ List.replicate (cl - s.length) 0)
  { input_ids := rows
    attention_mask := rows.map (fun r => r.map (fun v => if v ≠ 0 then 1 else 0)) }

/-- One row of the SimpleTokenizer branch of `Tokenizer._tokenize`
(tokenization.py lines 92-99): a row longer than the context length raises
`RuntimeError` when `truncate` is off, and otherwise is cut to `cl` tokens
with its last kept token replaced by `eot`; cutting to an empty row makes
the Python `tokens[-1] = eot_token` an `IndexError`. -/
def simpleRow (eot : Nat) (cl : Nat) (truncate : Bool) (tokens : List Nat) :
    Except TokErr (List Nat) :=
  if cl < tokens.length then
    if !truncate then .error .runtimeError
    else
      let cut := tokens.take cl
      if cut.isEmpty then .error .indexError
      else .ok (cut.dropLast ++ [eot])
  else .ok tokens

/-- Run `simpleRow` over all token rows; the Python loop raises at the first
offending row, in sequence order. -/
def simpleRows (eot cl : Nat) (truncate : Bool) : List (List Nat) → Except TokErr (List (List Nat))
  | [] => .ok []
  | t :: ts =>
    match simpleRow eot cl truncate t with
    | .error er => .error er
    | .ok r =>
      match simpleRows eot cl truncate ts with
      | .error er => .error er
      | .ok rs => .ok (r :: rs)

/-- Zero-pad a token row to length `cl`
(`input_ids[i, : len(tokens)] = torch.tensor(tokens)` into a zero row). -/
def pad0 (cl : Nat) (row : List Nat) : List Nat :=
  row ++ List.replicate (cl - row.length) 0

/-- Attention-mask row: ones over the kept tokens, zeros over the padding
(`attention_mask[i, : len(tokens)] = 1` into a zero row). -/
def mask1 (cl : Nat) (row : List Nat) : List Nat :=
  List.replicate row.length 1 ++ List.replicate (cl - row.length) 0

/-- SimpleTokenizer branch of `Tokenizer._tokenize` (tokenization.py lines
79-103): wrap every text in `sot` / `eot`, handle overlong rows, then write
the rows into the `[batch, cl]` zero matrices. -/
def simpleTokenize (E : TokEnv) (cl : Nat) (truncate : Bool) (texts : List String) :
    Except TokErr TokOut :=
  let all_tokens := texts.map (fun t => [E.sot] ++ E.enc t ++ [E.eot])
  match simpleRows E.eot cl truncate all_tokens with
  | .error er => .error er
  | .ok rows => .ok { input_ids := rows.map (pad0 cl), attention_mask := rows.map (mask1 cl) }

/-- Model of `Tokenizer._tokenize` (tokenization.py lines 47-103): dispatch
on the model-family tables, the multilingual table first; the CN-CLIP branch
hard-codes `context_length=52` again.  Input texts are modelled as a list
(the `isinstance(texts, str)` wrap only lifts a single string to `[texts]`). -/
def tokenizeAux (E : TokEnv) (name : String) (texts : List String) (cl : Nat)
    (truncate : Bool) : Except TokErr TokOut :=
  if name ∈ E.mling then .ok (hfTokenize E cl texts)
  else if name ∈ E.cncl then .ok (cnTokenize E 52 texts)
  else simpleTokenize E cl truncate texts

/-- Model of `Tokenizer.__call__` (tokenization.py lines 25-45): a CN-CLIP
model name is tokenized with the hard-coded context length 52 (and the
default `truncate = True`); any other name passes the caller-supplied
`context_length` and `truncate` through to `_tokenize`. -/
def tokenizerCall (E : TokEnv) (name : String) (texts : List String)
    (cl : Nat) (truncate : Bool) : Except TokErr TokOut :=
  if name ∈ E.cncl then tokenizeAux E name texts 52 true
  else tokenizeAux E name texts cl truncate

/-! ### Image preprocessing (`clip_server/executors/helper.py`, lines 19-55) -/

/-- The exclusive content slot of a docarray `Document`: at most one of
`text` / `blob` / `tensor` is set.  `τ` is the abstract image-tensor type. -/
inductive Content (τ : Type) where
  | text (s : String)
  | blob (b : List Nat)
  | tensor (t : τ)
deriving DecidableEq

/-- A document as the preprocessing helpers see it: its content slot and its
`uri` attribute. -/
structure PDoc (τ : Type) where
  content : Option (Content τ) := none
  uri : String := ""
deriving DecidableEq

/-- Getter `d.text`: the empty string unless the content is text. -/
def PDoc.text {τ} (d : PDoc τ) : String :=
  match d.content with
  | some (.text s) => s
  | _ => ""

/-- Getter `d.blob`: `None` unless the content is bytes. -/
def PDoc.blob {τ} (d : PDoc τ) : Option (List Nat) :=
  match d.content with
  | some (.blob b) => some b
  | _ => none

/-- Getter `d.tensor`: `None` unless the content is a tensor. -/
def PDoc.tensor {τ} (d : PDoc τ) : Option τ :=
  match d.content with
  | some (.tensor _t) => some _t
  | _ => none

/-- Getter `d.content_type`: which of the three content fields is set. -/
def PDoc.content_type {τ} (d : PDoc τ) : String :=
  match d.content with
  | some (.text _) => "text"
  | some (.blob _) => "blob"
  | some (.tensor _) => "tensor"
  | none => ""

/-- Model of docarray's `Document.convert_image_tensor_to_blob` (external):
encode the tensor into image bytes `t2b t` and store them as the blob. -/
def convert_image_tensor_to_blob {τ} (t2b : τ → List Nat) (d : PDoc τ) : PDoc τ :=
  match d.tensor with
  | some t => { d with content := some (.blob (t2b t)) }
  | none => d

/-- Model of docarray's `Document.load_uri_to_blob` (external): fetch the
uri into the blob. -/
def load_uri_to_blob {τ} (u2b : String → List Nat) (d : PDoc τ) : PDoc τ :=
  { d with content := some (.blob (u2b d.uri)) }

/-- Model of `d.pop('blob', 'tensor')`: clear the blob and tensor
attributes, leaving text content alone. -/
def popBlobTensor {τ} (d : PDoc τ) : PDoc τ :=
  match d.content with
  | some (.blob _) => { d with content := none }
  | some (.tensor _) => { d with content := none }
  | _ => d

/-- The tensor-to-blob / uri-to-blob conversion step of the `preproc_image`
loop (helper.py lines 35-39), producing the document `preprocess_fn` reads
its blob from. -/
def derivedDoc {τ} (t2b : τ → List Nat) (u2b : String → List Nat) (d : PDoc τ) : PDoc τ :=
  if (d.tensor).isSome then convert_image_tensor_to_blob t2b d
  else if d.content_type ≠ "blob" ∧ d.uri ≠ "" then load_uri_to_blob u2b d
  else d

/-- One iteration of the `preproc_image` loop (helper.py lines 33-46).
`pp` is the abstract `preprocess_fn` on image bytes (`none` models a raising
call, and feeding it a missing blob — `preprocess_fn(None)` — also raises);
`.detach()` is the identity on abstract tensors.  Returns the document as
the iteration leaves it (content restored, blob and tensor popped when
`drop_image_content` is set), together with the produced tensor. -/
def preprocOne {τ} (pp : List Nat → Option τ) (t2b : τ → List Nat)
    (u2b : String → List Nat) (drop_image_content : Bool) (d : PDoc τ) :
    Option (PDoc τ × τ) :=
  match (derivedDoc t2b u2b d).blob with
  | none => none
  | some b =>
    match pp b with
    | none => none
    | some t =>
      let d2 : PDoc τ := { derivedDoc t2b u2b d with content := d.content }
      some (if drop_image_content then popBlobTensor d2 else d2, t)

/-- The `preproc_image` loop over the whole array, accumulating
`tensors_batch` while updating the documents in place. -/
def preprocAll {τ} (pp : List Nat → Option τ) (t2b : τ → List Nat)
    (u2b : String → List Nat) (drop_image_content : Bool) :
    List (PDoc τ) → Option (List (PDoc τ) × List τ)
  | [] => some ([], [])
  | d :: ds =>
    match preprocOne pp t2b u2b drop_image_content d with
    | none => none
    | some (d1, t) =>
      match preprocAll pp t2b u2b drop_image_content ds with
      | none => none
      | some (ds1, ts) => some (d1 :: ds1, t :: ts)

/-- Model of `preproc_image` (helper.py lines 19-55).  `cast` models
`torch.stack(...).type(dtype)` together with the `return_np` / `.to(device)`
conversion, applied elementwise to the stacked batch (the `__cast_dtype__`
lookup merely selects the dtype); stacking an empty batch raises.  The
result pairs the document array with the batch dict, whose only entry is
`'pixel_values'`. -/
def preproc_image {τ} (pp : List Nat → Option τ) (t2b : τ → List Nat)
    (u2b : String → List Nat) (cast : τ → τ) (drop_image_content : Bool)
    (da : List (PDoc τ)) : Option (List (PDoc τ) × List (String × List τ)) :=
  match preprocAll pp t2b u2b drop_image_content da with
  | none => none
  | some (da1, ts) =>
    if ts.isEmpty then none
    else some (da1, [("pixel_values", ts.map cast)])

/-- Pythonic truthiness of `doc.text`: a non-empty string. -/
def truthyText {τ} (d : PDoc τ) : Bool := d.text != ""

/-- Pythonic truthiness of `doc.blob`: present and non-empty bytes. -/
def truthyBlob {τ} (d : PDoc τ) : Bool :=
  match d.blob with
  | some b => !b.isEmpty
  | none => false

/-- Pythonic truthiness of `doc.uri`: a non-empty string. -/
def truthyUri {τ} (d : PDoc τ) : Bool := d.uri != ""

/-- Model of `split_img_txt_da` (helper.py lines 81-85); appending to a
docarray is modelled by appending to a list. -/
def split_img_txt_da {τ} (d : PDoc τ) (img_da txt_da : List (PDoc τ)) :
    List (PDoc τ) × List (PDoc τ) :=
  if truthyText d then (img_da, txt_da ++ [d])
  else if truthyBlob d || (d.tensor).isSome || truthyUri d then (img_da ++ [d], txt_da)
  else (img_da, txt_da)

/-! ### Ranking (`clip_server/executors/helper.py`, lines 12-16 and 88-123) -/

/-- Model of `np.max` on a vector (0 on the empty vector, where numpy
raises). -/
def listMax : List ℚ → ℚ
  | [] => 0
  | v :: vs => vs.foldl max v

/-- Model of `numpy_softmax` (helper.py lines 12-16) on a 1-D vector, the
shape `set_rank` applies it to; `e` is the abstract `np.exp`. -/
def numpy_softmax (e : ℚ → ℚ) (x : List ℚ) : List ℚ :=
  let m := listMax x
  let e_x := x.map (fun v => e (v - m))
  let s := e_x.sum
  e_x.map (fun v => v / s)

/-- Textbook softmax `exp(x_i) / Σ_j exp(x_j)`: the reference function of
the refinement claim about `numpy_softmax`, written from the spec's words,
not from the code. -/
def softmax_spec (e : ℚ → ℚ) (x : List ℚ) : List ℚ :=
  let e_x := x.map e
  e_x.map (fun v => v / e_x.sum)

/-- A docarray `NamedScore`, reduced to the two fields `set_rank` writes. -/
structure Score where
  value : ℚ
  op_name : String
deriving DecidableEq

/-- A match document as `set_rank` sees it: its id, its optional embedding,
and its `scores` map (an association list, newest entry first). -/
structure MatchDoc where
  id : String
  emb : Option (List ℚ)
  scores : List (String × Score) := []
deriving DecidableEq

/-- A query document: its embedding and its matches. -/
structure QueryDoc where
  emb : List ℚ
  matches' : List MatchDoc
deriving DecidableEq

/-- Read `m.scores[name]` (docarray scores are a defaultdict: a missing
entry reads as a fresh zero-valued score). -/
def getScore (m : MatchDoc) (name : String) : Score :=
  (m.scores.lookup name).getD ⟨0, ""⟩

/-- Store `s` under `name` in the `scores` map of `m`. -/
def setScore (m : MatchDoc) (name : String) (s : Score) : MatchDoc :=
  { m with scores := (name, s) :: m.scores.eraseP (fun p => p.1 == name) }

/-- The sort key of line 120: `_m.scores['clip_score'].value`. -/
def clipScoreVal (m : MatchDoc) : ℚ := (getScore m "clip_score").value

/-- The loop body of helper.py lines 106-113 on one candidate, plus the
embedding removal of line 117: store the softmax score under `clip_score`,
the cosine score under `clip_score_cosine`, and drop the embedding. -/
def updateMatch (m : MatchDoc) (c_score s_score : ℚ) : MatchDoc :=
  let m1 := setScore m "clip_score" ⟨s_score, "softmax"⟩
  let m2 := setScore m1 "clip_score_cosine" ⟨c_score, "cosine"⟩
  { m2 with emb := none }

/-- Three-way zip, the shape of `zip(_candidates, _candidate_cosines,
_candidate_softmaxs)`. -/
def zipWith3 {α β γ δ : Type} (f : α → β → γ → δ) : List α → List β → List γ → List δ
  | a :: as, b :: bs, c :: cs => f a b c :: zipWith3 f as bs cs
  | _, _, _ => []

/-- The descending `clip_score` order of `sorted(..., reverse=True)`. -/
def scoreGe (a b : MatchDoc) : Prop := clipScoreVal b ≤ clipScoreVal a

instance : DecidableRel scoreGe :=
  fun a b => inferInstanceAs (Decidable (clipScoreVal b ≤ clipScoreVal a))

instance : IsTotal MatchDoc scoreGe :=
  ⟨fun a b => le_total (clipScoreVal b) (clipScoreVal a)⟩

instance : IsTrans MatchDoc scoreGe :=
  ⟨fun _ _ _ h1 h2 => le_trans h2 h1⟩

/-- Score one query's candidates (helper.py lines 104-117): the cosine
scores sliced for this query, their softmax at the given logit scale, both
written into each candidate. -/
def scoreQuery (e : ℚ → ℚ) (scale : ℚ) (q : QueryDoc) (cos : List ℚ) : List MatchDoc :=
  zipWith3 updateMatch q.matches' cos (numpy_softmax e (cos.map (fun v => scale * v)))

/-- One full iteration of the `set_rank` loop for one query: score the
candidates, then sort them by descending `clip_score`.  Python's `sorted`
(a stable sort) is modelled by the stable insertion sort. -/
def rankQuery (e : ℚ → ℚ) (scale : ℚ) (q : QueryDoc) (cos : List ℚ) : QueryDoc :=
  { q with matches' := List.insertionSort scoreGe (scoreQuery e scale q cos) }

/-- The `start_idx` / `end_idx` loop of `set_rank` (helper.py lines
97-123): each query is paired with its row of the Q × C cosine block
matrix and slices out the columns of its own candidates. -/
def setRankLoop (e : ℚ → ℚ) (scale : ℚ) : List (QueryDoc × List ℚ) → Nat → List QueryDoc
  | [], _ => []
  | (q, row) :: rest, start =>
    rankQuery e scale q ((row.drop start).take q.matches'.length) ::
      setRankLoop e scale rest (start + q.matches'.length)

/-- Model of `set_rank` (helper.py lines 88-123).  `cd` is the abstract
docarray cosine distance on embedding vectors (the external
`docarray.math.distance.numpy.cosine`), `e` the abstract `np.exp`, `scale`
the `_logit_scale` argument.  The cosine block matrix is computed between
all queries and the concatenation of all queries' matches (`docs['@m']`); a
missing candidate embedding is read as the empty vector (the real code
would fail there, and the theorems assume embeddings are present). -/
def set_rank (cd : List ℚ → List ℚ → ℚ) (e : ℚ → ℚ) (scale : ℚ)
    (docs : List QueryDoc) : List QueryDoc :=
  let candidates := (docs.map QueryDoc.matches').flatten
  let cosine_scores :=
    docs.map (fun q => candidates.map (fun c => 1 - cd q.emb (c.emb.getD [])))
  setRankLoop e scale (docs.zip cosine_scores) 0

/-- The default argument `_logit_scale = np.exp(4.60517)`. -/
def logit_scale (e : ℚ → ℚ) : ℚ := e (460517 / 100000)

/-- Hypothesis of the ranking claims: every query and every match carries an
embedding. -/
def embPresent (docs : List QueryDoc) : Prop :=
  ∀ q ∈ docs, ∀ m ∈ q.matches', m.emb.isSome

/-! ### Supporting lemmas -/

instance {ε α : Type} [DecidableEq ε] [DecidableEq α] : DecidableEq (Except ε α) := fun
  | .error a, .error b =>
    if h : a = b then .isTrue (by rw [h]) else .isFalse (fun hh => by cases hh; exact h rfl)
  | .error _, .ok _ => .isFalse (fun hh => by cases hh)
  | .ok _, .error _ => .isFalse (fun hh => by cases hh)
  | .ok a, .ok b =>
    if h : a = b then .isTrue (by rw [h]) else .isFalse (fun hh => by cases hh; exact h rfl)

theorem derivedDoc_uri {τ} (t2b : τ → List Nat) (u2b : String → List Nat) (d : PDoc τ) :
    (derivedDoc t2b u2b d).uri = d.uri := by
  unfold derivedDoc
  split
  · unfold convert_image_tensor_to_blob
    split <;> rfl
  · split <;> rfl

theorem preprocOne_false_eq {τ} (pp : List Nat → Option τ) (t2b : τ → List Nat)
    (u2b : String → List Nat) (d : PDoc τ) :
    preprocOne pp t2b u2b false d =
      ((derivedDoc t2b u2b d).blob.bind pp).map (fun t => (d, t)) := by
  unfold preprocOne
  cases hb : (derivedDoc t2b u2b d).blob with
  | none => simp
  | some b =>
    cases hp : pp b with
    | none => simp [hp]
    | some t =>
      have hd2 : ({ derivedDoc t2b u2b d with content := d.content } : PDoc τ) = d := by
        have hu := derivedDoc_uri t2b u2b d
        cases d with
        | mk c u => simp_all
      simp [hp, hd2]

theorem preprocAll_false {τ} (pp : List Nat → Option τ) (t2b : τ → List Nat)
    (u2b : String → List Nat) :
    ∀ da : List (PDoc τ), (∀ d ∈ da, (preprocOne pp t2b u2b false d).isSome) →
      ∃ ts : List τ, preprocAll pp t2b u2b false da = some (da, ts) ∧
        ts.length = da.length ∧
        ∀ i (hi : i < da.length),
          ts.get? i = (preprocOne pp t2b u2b false (da.get ⟨i, hi⟩)).map Prod.snd := by
  intro da
  induction da with
  | nil => exact fun _ => ⟨[], rfl, rfl, fun i hi => absurd hi (Nat.not_lt_zero i)⟩
  | cons d ds ih =>
    intro h
    obtain ⟨ts, h1, h2, h3⟩ := ih (fun x hx => h x (List.mem_cons_of_mem d hx))
    have hd := h d (List.mem_cons_self d ds)
    obtain ⟨t, ht⟩ : ∃ t, preprocOne pp t2b u2b false d = some (d, t) := by
      rw [preprocOne_false_eq] at hd ⊢
      cases hob : (derivedDoc t2b u2b d).blob.bind pp with
      | none => rw [hob] at hd; cases hd
      | some t0 => exact ⟨t0, rfl⟩
    refine ⟨t :: ts, ?_, by simp [h2], ?_⟩
    · unfold preprocAll
      rw [ht, h1]
    · intro i hi
      cases i with
      | zero => simp [ht]
      | succ n =>
        have hn : n < ds.length := Nat.lt_of_succ_lt_succ hi
        exact h3 n hn

/-- Claim C6: on a non-empty array on which `preprocess_fn` succeeds for
every document, `preproc_image` (with the default `drop_image_content =
False`) returns the same document array together with a dict whose only key
is `'pixel_values'`, holding the stack of the per-document preprocessing
results, so the stack's first dimension equals the number of documents. -/
theorem preproc_image_batch {τ} (pp : List Nat → Option τ) (t2b : τ → List Nat)
    (u2b : String → List Nat) (cast : τ → τ) (da : List (PDoc τ))
    (hne : da ≠ []) (hsucc : ∀ d ∈ da, (preprocOne pp t2b u2b false d).isSome) :
    ∃ batch : List τ,
      preproc_image pp t2b u2b cast false da = some (da, [("pixel_values", batch)]) ∧
      batch.length = da.length ∧
      ∀ i (hi : i < da.length),
        batch.get? i =
          (preprocOne pp t2b u2b false (da.get ⟨i, hi⟩)).map (fun r => cast r.2) := by
  obtain ⟨ts, hts, hlen, hget⟩ := preprocAll_false pp t2b u2b da hsucc
  have htsne : ts.isEmpty = false := by
    cases ts with
    | nil => cases da with
      | nil => exact absurd rfl hne
      | cons a l => cases hlen
    | cons a l => rfl
  refine ⟨ts.map cast, ?_, by simp [hlen], ?_⟩
  · unfold preproc_image
    rw [hts]
    simp [htsne]
  · intro i hi
    rw [List.get?_map, hget i hi]
    cases preprocOne pp t2b u2b false (da.get ⟨i, hi⟩) <;> rfl

/-- Witness for `preproc_image_batch` at a one-document array whose content
is a two-byte blob, with `preprocess_fn` returning the blob length. -/
theorem preproc_image_batch_witness :
    ∃ batch : List Nat,
      preproc_image (fun b => some b.length) (fun _ => ([] : List Nat)) (fun _ => [])
          (fun t => t + 1) false [{ content := some (.blob [3, 4]) }] =
        some ([{ content := some (.blob [3, 4]) }], [("pixel_values", batch)]) ∧
      batch.length = [({ content := some (.blob [3, 4]) } : PDoc Nat)].length ∧
      ∀ i (hi : i < [({ content := some (.blob [3, 4]) } : PDoc Nat)].length),
        batch.get? i =
          (preprocOne (fun b => some b.length) (fun _ => ([] : List Nat)) (fun _ => [])
              false ([({ content := some (.blob [3, 4]) } : PDoc Nat)].get ⟨i, hi⟩)).map
            (fun r => (fun t => t + 1) r.2) :=
  preproc_image_batch (fun b => some b.length) (fun _ => []) (fun _ => [])
    (fun t => t + 1) [{ content := some (.blob [3, 4]) }] (by decide) (by decide)

/-- Claim C8: with `drop_image_content = False`, a successful `preproc_image`
call returns every document with its content field equal to its value before
the call (the loop writes the saved content back after preprocessing). -/
theorem preproc_image_content {τ} (pp : List Nat → Option τ) (t2b : τ → List Nat)
    (u2b : String → List Nat) (cast : τ → τ) (da : List (PDoc τ))
    (hne : da ≠ []) (hsucc : ∀ d ∈ da, (preprocOne pp t2b u2b false d).isSome) :
    ∃ res, preproc_image pp t2b u2b cast false da = some res ∧
      res.1.map PDoc.content = da.map PDoc.content := by
  obtain ⟨batch, hb, _, _⟩ := preproc_image_batch pp t2b u2b cast da hne hsucc
  exact ⟨(da, [("pixel_values", batch)]), hb, rfl⟩

/-- Witness for `preproc_image_content`: a one-document array whose content
is a tensor (converted to a blob for preprocessing and restored afterwards). -/
theorem preproc_image_content_witness :
    ∃ res,
      preproc_image (fun b => some b.length) (fun t => [t, t]) (fun _ => [])
          (fun t => t) false [({ content := some (.tensor 42) } : PDoc Nat)] = some res ∧
      res.1.map PDoc.content = [({ content := some (.tensor 42) } : PDoc Nat)].map PDoc.content :=
  preproc_image_content (fun b => some b.length) (fun t => [t, t]) (fun _ => [])
    (fun t => t) [{ content := some (.tensor 42) }] (by decide) (by decide)

/-- Claim C10: `split_img_txt_da` appends a document with non-empty text to
the text array only; a document with empty text and falsy blob, tensor and
uri is appended to neither; the result never extends both arrays, and each
array is either unchanged or extended by exactly the one document at its
end. -/
theorem split_img_txt_da_cases {τ} (d : PDoc τ) (img_da txt_da : List (PDoc τ)) :
    (d.text ≠ "" → split_img_txt_da d img_da txt_da = (img_da, txt_da ++ [d])) ∧
    (d.text = "" → truthyBlob d = false → d.tensor = none → d.uri = "" →
      split_img_txt_da d img_da txt_da = (img_da, txt_da)) ∧
    (((split_img_txt_da d img_da txt_da).1 = img_da ∨
        (split_img_txt_da d img_da txt_da).2 = txt_da) ∧
      ((split_img_txt_da d img_da txt_da).1 = img_da ∨
        (split_img_txt_da d img_da txt_da).1 = img_da ++ [d]) ∧
      ((split_img_txt_da d img_da txt_da).2 = txt_da ∨
        (split_img_txt_da d img_da txt_da).2 = txt_da ++ [d])) := by
  refine ⟨fun h => ?_, fun h1 h2 h3 h4 => ?_, ?_⟩
  · simp [split_img_txt_da, truthyText, h]
  · simp [split_img_txt_da, truthyText, truthyUri, h1, h2, h3, h4]
  · unfold split_img_txt_da
    split
    · exact ⟨Or.inl rfl, Or.inl rfl, Or.inr rfl⟩
    · split
      · exact ⟨Or.inr rfl, Or.inr rfl, Or.inl rfl⟩
      · exact ⟨Or.inl rfl, Or.inl rfl, Or.inl rfl⟩

/-- Witness for `split_img_txt_da_cases`: a text document with a uri still
goes to the text array only. -/
theorem split_img_txt_da_witness :
    split_img_txt_da ({ content := some (.text "hello"), uri := "u" } : PDoc Nat) [] [] =
      ([], [{ content := some (.text "hello"), uri := "u" }]) :=
  (split_img_txt_da_cases { content := some (.text "hello"), uri := "u" } [] []).1 (by decide)

/-- Claim C5: for an exponential-law-satisfying positive `e` (as `np.exp`
is), `numpy_softmax` — which subtracts the vector maximum before applying
`e` — computes the same function as the textbook softmax, and consequently
its output entries are nonnegative and sum to 1. -/
theorem numpy_softmax_correct (e : ℚ → ℚ) (x : List ℚ) (hx : x ≠ [])
    (hom : ∀ a b, e (a + b) = e a * e b) (pos : ∀ a, 0 < e a) :
    numpy_softmax e x = softmax_spec e x ∧
    (∀ v ∈ numpy_softmax e x, 0 ≤ v) ∧
    (numpy_softmax e x).sum = 1 := by
  have hnz : ∀ a, e a ≠ 0 := fun a => ne_of_gt (pos a)
  have hinz : (e (listMax x))⁻¹ ≠ 0 := inv_ne_zero (hnz _)
  have he : ∀ v, e (v - listMax x) = e v * (e (listMax x))⁻¹ := by
    intro v
    have h1 : e (v - listMax x) * e (listMax x) = e v := by
      rw [← hom]
      norm_num
    calc e (v - listMax x) = e v / e (listMax x) := (eq_div_iff (hnz _)).mpr h1
    _ = e v * (e (listMax x))⁻¹ := div_eq_mul_inv _ _
  have hmap : x.map (fun v => e (v - listMax x)) =
      (x.map e).map (fun w => w * (e (listMax x))⁻¹) := by
    rw [List.map_map]
    exact List.map_congr_left (fun a _ => he a)
  have hsum : (x.map (fun v => e (v - listMax x))).sum =
      (x.map e).sum * (e (listMax x))⁻¹ := by
    rw [hmap]
    simpa using List.sum_map_mul_right (x.map e) (fun w => w) ((e (listMax x))⁻¹)
  have hSpos : 0 < (x.map e).sum := by
    refine List.sum_pos _ ?_ ?_
    · intro a ha
      obtain ⟨b, _, rfl⟩ := List.mem_map.mp ha
      exact pos b
    · simpa using hx
  have hS : (x.map e).sum ≠ 0 := ne_of_gt hSpos
  have hmain : numpy_softmax e x = softmax_spec e x := by
    simp only [numpy_softmax, softmax_spec]
    rw [hsum, hmap, List.map_map]
    refine List.map_congr_left ?_
    intro a _
    simp only [Function.comp]
    exact mul_div_mul_right _ _ hinz
  refine ⟨hmain, ?_, ?_⟩
  · intro v hv
    rw [hmain] at hv
    simp only [softmax_spec] at hv
    obtain ⟨w, hw, rfl⟩ := List.mem_map.mp hv
    obtain ⟨b, _, rfl⟩ := List.mem_map.mp hw
    exact div_nonneg (le_of_lt (pos b)) (le_of_lt hSpos)
  · rw [hmain]
    simp only [softmax_spec]
    have hdiv : ((x.map e).map (fun v => v / (x.map e).sum)) =
        ((x.map e).map (fun v => v * ((x.map e).sum)⁻¹)) :=
      List.map_congr_left (fun a _ => div_eq_mul_inv _ _)
    rw [hdiv]
    rw [show ((x.map e).map (fun v => v * ((x.map e).sum)⁻¹)).sum =
        (x.map e).sum * ((x.map e).sum)⁻¹ from by
      simpa using List.sum_map_mul_right (x.map e) (fun w => w) (((x.map e).sum)⁻¹)]
    exact mul_inv_cancel₀ hS

/-- Witness for `numpy_softmax_correct` at the vector `[0, 1]` with the
constant-one exponential (which satisfies both laws). -/
theorem numpy_softmax_correct_witness :
    numpy_softmax (fun _ => 1) [0, 1] = softmax_spec (fun _ => 1) [0, 1] ∧
    (∀ v ∈ numpy_softmax (fun _ => 1) [0, 1], 0 ≤ v) ∧
    (numpy_softmax (fun _ => 1) [0, 1]).sum = 1 :=
  numpy_softmax_correct (fun _ => 1) [0, 1] (by simp)
    (fun _ _ => (one_mul 1).symm) (fun _ => one_pos)

theorem numpy_softmax_length (e : ℚ → ℚ) (x : List ℚ) :
    (numpy_softmax e x).length = x.length := by
  simp [numpy_softmax]

theorem zipWith3_length {α β γ δ : Type} (f : α → β → γ → δ) :
    ∀ (as : List α) (bs : List β) (cs : List γ),
      as.length ≤ bs.length → as.length ≤ cs.length →
      (zipWith3 f as bs cs).length = as.length := by
  intro as
  induction as with
  | nil => intro bs cs _ _; cases bs <;> cases cs <;> rfl
  | cons a as ih =>
    intro bs cs hb hc
    cases bs with
    | nil => simp at hb
    | cons b bs =>
      cases cs with
      | nil => simp at hc
      | cons c cs =>
        simp only [zipWith3, List.length_cons]
        rw [ih bs cs (Nat.le_of_succ_le_succ hb) (Nat.le_of_succ_le_succ hc)]

theorem zipWith3_get {α β γ δ : Type} (f : α → β → γ → δ) :
    ∀ (as : List α) (bs : List β) (cs : List γ) (i : Nat) (h1 : i < as.length)
      (h2 : i < bs.length) (h3 : i < cs.length) (h4 : i < (zipWith3 f as bs cs).length),
      (zipWith3 f as bs cs).get ⟨i, h4⟩ =
        f (as.get ⟨i, h1⟩) (bs.get ⟨i, h2⟩) (cs.get ⟨i, h3⟩) := by
  intro as
  induction as with
  | nil => intro bs cs i h1; exact absurd h1 (Nat.not_lt_zero i)
  | cons a as ih =>
    intro bs cs i h1 h2 h3 h4
    cases bs with
    | nil => simp at h2
    | cons b bs =>
      cases cs with
      | nil => simp at h3
      | cons c cs =>
        cases i with
        | zero => rfl
        | succ n =>
          exact ih bs cs n (Nat.lt_of_succ_lt_succ h1) (Nat.lt_of_succ_lt_succ h2)
            (Nat.lt_of_succ_lt_succ h3) (Nat.lt_of_succ_lt_succ h4)

theorem zipWith3_updateMatch_id :
    ∀ (ms : List MatchDoc) (bs cs : List ℚ), ms.length ≤ bs.length → ms.length ≤ cs.length →
      (zipWith3 updateMatch ms bs cs).map MatchDoc.id = ms.map MatchDoc.id := by
  intro ms
  induction ms with
  | nil => intro bs cs _ _; cases bs <;> cases cs <;> rfl
  | cons m ms ih =>
    intro bs cs hb hc
    cases bs with
    | nil => simp at hb
    | cons b bs =>
      cases cs with
      | nil => simp at hc
      | cons c cs =>
        simp only [zipWith3, List.map_cons]
        rw [ih bs cs (Nat.le_of_succ_le_succ hb) (Nat.le_of_succ_le_succ hc)]
        rfl

theorem scoreQuery_length (e : ℚ → ℚ) (scale : ℚ) (q : QueryDoc) (cos : List ℚ)
    (h : cos.length = q.matches'.length) :
    (scoreQuery e scale q cos).length = q.matches'.length := by
  unfold scoreQuery
  refine zipWith3_length _ _ _ _ (le_of_eq h.symm) (le_of_eq ?_)
  rw [numpy_softmax_length, List.length_map, h]

/-- The `start_idx` bookkeeping of `set_rank` slices out of the block matrix
exactly the cosine scores of each query's own candidates. -/
theorem setRankLoop_spec (e : ℚ → ℚ) (scale : ℚ) (f : QueryDoc → MatchDoc → ℚ) :
    ∀ (suf pre : List QueryDoc),
      setRankLoop e scale
        (suf.zip (suf.map (fun q =>
          (((pre ++ suf).map QueryDoc.matches').flatten).map (f q))))
        ((pre.map QueryDoc.matches').flatten).length
      = suf.map (fun q => rankQuery e scale q (q.matches'.map (f q))) := by
  intro suf
  induction suf with
  | nil => intro pre; rfl
  | cons q rest ih =>
    intro pre
    have hflat : ((pre ++ q :: rest).map QueryDoc.matches').flatten =
        (pre.map QueryDoc.matches').flatten ++
          (q.matches' ++ ((rest.map QueryDoc.matches').flatten)) := by
      rw [List.map_append, List.flatten_append, List.map_cons, List.flatten_cons]
    have hslice :
        (((((pre ++ q :: rest).map QueryDoc.matches').flatten).map (f q)).drop
            ((pre.map QueryDoc.matches').flatten).length).take q.matches'.length
        = q.matches'.map (f q) := by
      rw [hflat, List.map_append]
      rw [show ((pre.map QueryDoc.matches').flatten).length =
          (((pre.map QueryDoc.matches').flatten).map (f q)).length from
        (List.length_map ..).symm]
      rw [List.drop_left, List.map_append]
      rw [show q.matches'.length = (q.matches'.map (f q)).length from
        (List.length_map ..).symm]
      rw [List.take_left]
    simp only [List.map_cons, List.zip_cons_cons, setRankLoop]
    congr 1
    · rw [hslice]
    · have hlen : ((pre.map QueryDoc.matches').flatten).length + q.matches'.length =
          (((pre ++ [q]).map QueryDoc.matches').flatten).length := by
        rw [List.map_append, List.flatten_append]
        simp
      have happ : (pre ++ [q]) ++ rest = pre ++ q :: rest := by simp
      have harg : rest.map (fun q2 =>
            (((pre ++ q :: rest).map QueryDoc.matches').flatten).map (f q2)) =
          rest.map (fun q2 =>
            ((((pre ++ [q]) ++ rest).map QueryDoc.matches').flatten).map (f q2)) := by
        rw [happ]
      rw [hlen, harg]
      exact ih (pre ++ [q])

/-- Pointwise description of `set_rank`: the i-th output query is the i-th
input query ranked against the cosine scores of its own matches. -/
theorem set_rank_eq (cd : List ℚ → List ℚ → ℚ) (e : ℚ → ℚ) (scale : ℚ)
    (docs : List QueryDoc) :
    set_rank cd e scale docs =
      docs.map (fun q => rankQuery e scale q
        (q.matches'.map (fun c => 1 - cd q.emb (c.emb.getD [])))) := by
  have h := setRankLoop_spec e scale (fun q c => 1 - cd q.emb (c.emb.getD [])) docs []
  simpa [set_rank] using h

theorem set_rank_length (cd : List ℚ → List ℚ → ℚ) (e : ℚ → ℚ) (scale : ℚ)
    (docs : List QueryDoc) : (set_rank cd e scale docs).length = docs.length := by
  rw [set_rank_eq]
  exact List.length_map ..

theorem set_rank_get (cd : List ℚ → List ℚ → ℚ) (e : ℚ → ℚ) (scale : ℚ)
    (docs : List QueryDoc) (i : Nat) (hi : i < docs.length)
    (hi2 : i < (set_rank cd e scale docs).length) :
    (set_rank cd e scale docs).get ⟨i, hi2⟩ =
      rankQuery e scale (docs.get ⟨i, hi⟩)
        ((docs.get ⟨i, hi⟩).matches'.map
          (fun c => 1 - cd (docs.get ⟨i, hi⟩).emb (c.emb.getD []))) := by
  rw [List.get_of_eq (set_rank_eq cd e scale docs) ⟨i, hi2⟩]
  exact List.get_map ..

theorem updateMatch_lookup_cosine (m : MatchDoc) (c s : ℚ) :
    (updateMatch m c s).scores.lookup "clip_score_cosine" = some ⟨c, "cosine"⟩ := rfl

theorem updateMatch_lookup_clip (m : MatchDoc) (c s : ℚ) :
    (updateMatch m c s).scores.lookup "clip_score" = some ⟨s, "softmax"⟩ := rfl

theorem rankQuery_matches_perm_id (e : ℚ → ℚ) (scale : ℚ) (q : QueryDoc) (cos : List ℚ)
    (h : cos.length = q.matches'.length) :
    ((rankQuery e scale q cos).matches'.map MatchDoc.id).Perm (q.matches'.map MatchDoc.id) := by
  have hperm := (List.perm_insertionSort scoreGe (scoreQuery e scale q cos)).map MatchDoc.id
  have hsq : (scoreQuery e scale q cos).map MatchDoc.id = q.matches'.map MatchDoc.id := by
    refine zipWith3_updateMatch_id _ _ _ (le_of_eq h.symm) (le_of_eq ?_)
    rw [numpy_softmax_length, List.length_map, h]
  exact hsq ▸ hperm

/-- Claim C1: for docs in which every query and every match carries an
embedding, after `set_rank` every query's matches list is sorted in
non-increasing order of `scores['clip_score'].value`. -/
theorem set_rank_sorted (cd : List ℚ → List ℚ → ℚ) (e : ℚ → ℚ) (scale : ℚ)
    (docs : List QueryDoc) (h : embPresent docs) :
    ∀ q ∈ set_rank cd e scale docs,
      q.matches'.Pairwise (fun a b => clipScoreVal b ≤ clipScoreVal a) := by
  intro q hq
  rw [set_rank_eq] at hq
  obtain ⟨q0, _, rfl⟩ := List.mem_map.mp hq
  exact List.sorted_insertionSort scoreGe _

/-- Concrete document array for the ranking witnesses: one query with two
embedded matches. -/
def wdocs : List QueryDoc :=
  [{ emb := [1], matches' := [{ id := "a", emb := some [1] }, { id := "b", emb := some [2] }] }]

/-- Witness for `set_rank_sorted` at a concrete one-query array. -/
theorem set_rank_sorted_witness :
    (set_rank (fun x y => x.sum - y.sum) (fun _ => 1) 1 wdocs).length = wdocs.length ∧
    ∀ q ∈ set_rank (fun x y => x.sum - y.sum) (fun _ => 1) 1 wdocs,
      q.matches'.Pairwise (fun a b => clipScoreVal b ≤ clipScoreVal a) :=
  ⟨set_rank_length (fun x y => x.sum - y.sum) (fun _ => 1) 1 wdocs,
    set_rank_sorted (fun x y => x.sum - y.sum) (fun _ => 1) 1 wdocs (by unfold embPresent; decide)⟩

/-- Claim C7: `set_rank` reorders but never adds, removes or duplicates
candidates: the i-th output query's list of match ids is a permutation of
the i-th input query's list of match ids. -/
theorem set_rank_matches_perm (cd : List ℚ → List ℚ → ℚ) (e : ℚ → ℚ) (scale : ℚ)
    (docs : List QueryDoc) (h : embPresent docs) :
    (set_rank cd e scale docs).length = docs.length ∧
    ∀ i (hi : i < docs.length) (hi2 : i < (set_rank cd e scale docs).length),
      ((((set_rank cd e scale docs).get ⟨i, hi2⟩).matches').map MatchDoc.id).Perm
        (((docs.get ⟨i, hi⟩).matches').map MatchDoc.id) := by
  refine ⟨set_rank_length cd e scale docs, ?_⟩
  intro i hi hi2
  rw [set_rank_get cd e scale docs i hi hi2]
  exact rankQuery_matches_perm_id _ _ _ _ (List.length_map ..)

/-- Witness for `set_rank_matches_perm` at a concrete one-query array. -/
theorem set_rank_matches_perm_witness :
    (set_rank (fun x y => x.sum - y.sum) (fun _ => 1) 1 wdocs).length = wdocs.length ∧
    ∀ i (hi : i < wdocs.length)
      (hi2 : i < (set_rank (fun x y => x.sum - y.sum) (fun _ => 1) 1 wdocs).length),
      ((((set_rank (fun x y => x.sum - y.sum) (fun _ => 1) 1 wdocs).get ⟨i, hi2⟩).matches').map
          MatchDoc.id).Perm
        (((wdocs.get ⟨i, hi⟩).matches').map MatchDoc.id) :=
  set_rank_matches_perm (fun x y => x.sum - y.sum) (fun _ => 1) 1 wdocs (by unfold embPresent; decide)

/-- Claim C3: after `set_rank` (at the default logit scale
`np.exp(4.60517)`), every match of the i-th query corresponds to a j-th
pre-call match and carries `clip_score_cosine` equal to 1 minus the cosine
distance between the query's and that match's embeddings with op name
`cosine`, and `clip_score` equal to the j-th entry of the softmax — taken
over this query's own matches only — of the logit-scaled cosine scores,
with op name `softmax`. -/
theorem set_rank_scores (cd : List ℚ → List ℚ → ℚ) (e : ℚ → ℚ)
    (docs : List QueryDoc) (h : embPresent docs) :
    ∀ i (hi : i < docs.length) (hi2 : i < (set_rank cd e (logit_scale e) docs).length),
      ∀ c ∈ ((set_rank cd e (logit_scale e) docs).get ⟨i, hi2⟩).matches',
        ∃ j, ∃ hj : j < (docs.get ⟨i, hi⟩).matches'.length,
          c.id = ((docs.get ⟨i, hi⟩).matches'.get ⟨j, hj⟩).id ∧
          c.scores.lookup "clip_score_cosine" =
            some ⟨1 - cd (docs.get ⟨i, hi⟩).emb
              (((docs.get ⟨i, hi⟩).matches'.get ⟨j, hj⟩).emb.getD []), "cosine"⟩ ∧
          c.scores.lookup "clip_score" =
            some ⟨(numpy_softmax e ((docs.get ⟨i, hi⟩).matches'.map
                (fun m => logit_scale e *
                  (1 - cd (docs.get ⟨i, hi⟩).emb (m.emb.getD []))))).getD j 0,
              "softmax"⟩ := by
  intro i hi hi2 c hc
  rw [set_rank_get cd e (logit_scale e) docs i hi hi2] at hc
  have hc2 : c ∈ scoreQuery e (logit_scale e) (docs.get ⟨i, hi⟩)
      ((docs.get ⟨i, hi⟩).matches'.map
        (fun m => 1 - cd (docs.get ⟨i, hi⟩).emb (m.emb.getD []))) :=
    (List.mem_insertionSort scoreGe).mp hc
  obtain ⟨⟨j, hjl⟩, hget⟩ := List.mem_iff_get.mp hc2
  have hlen : (scoreQuery e (logit_scale e) (docs.get ⟨i, hi⟩)
      ((docs.get ⟨i, hi⟩).matches'.map
        (fun m => 1 - cd (docs.get ⟨i, hi⟩).emb (m.emb.getD [])))).length =
      (docs.get ⟨i, hi⟩).matches'.length :=
    scoreQuery_length _ _ _ _ (List.length_map ..)
  have hj : j < (docs.get ⟨i, hi⟩).matches'.length := hlen ▸ hjl
  have hcosl : j < ((docs.get ⟨i, hi⟩).matches'.map
      (fun m => 1 - cd (docs.get ⟨i, hi⟩).emb (m.emb.getD []))).length := by
    rw [List.length_map]; exact hj
  have hsoftl : j < (numpy_softmax e (((docs.get ⟨i, hi⟩).matches'.map
      (fun m => 1 - cd (docs.get ⟨i, hi⟩).emb (m.emb.getD []))).map
        (fun v => logit_scale e * v))).length := by
    rw [numpy_softmax_length, List.length_map, List.length_map]; exact hj
  have hsq_get := zipWith3_get updateMatch (docs.get ⟨i, hi⟩).matches'
    ((docs.get ⟨i, hi⟩).matches'.map
      (fun m => 1 - cd (docs.get ⟨i, hi⟩).emb (m.emb.getD [])))
    (numpy_softmax e (((docs.get ⟨i, hi⟩).matches'.map
      (fun m => 1 - cd (docs.get ⟨i, hi⟩).emb (m.emb.getD []))).map
        (fun v => logit_scale e * v)))
    j hj hcosl hsoftl hjl
  obtain rfl : c = updateMatch ((docs.get ⟨i, hi⟩).matches'.get ⟨j, hj⟩)
      (((docs.get ⟨i, hi⟩).matches'.map
        (fun m => 1 - cd (docs.get ⟨i, hi⟩).emb (m.emb.getD []))).get ⟨j, hcosl⟩)
      ((numpy_softmax e (((docs.get ⟨i, hi⟩).matches'.map
        (fun m => 1 - cd (docs.get ⟨i, hi⟩).emb (m.emb.getD []))).map
          (fun v => logit_scale e * v))).get ⟨j, hsoftl⟩) := hget.symm.trans hsq_get
  have hlist : ((docs.get ⟨i, hi⟩).matches'.map
      (fun m => 1 - cd (docs.get ⟨i, hi⟩).emb (m.emb.getD []))).map
        (fun v => logit_scale e * v) =
      (docs.get ⟨i, hi⟩).matches'.map
        (fun m => logit_scale e * (1 - cd (docs.get ⟨i, hi⟩).emb (m.emb.getD []))) := by
    rw [List.map_map]
    rfl
  refine ⟨j, hj, rfl, ?_, ?_⟩
  · rw [updateMatch_lookup_cosine]
    rw [List.get_map]
  · rw [updateMatch_lookup_clip]
    rw [← hlist]
    rw [List.getD_eq_get _ 0 hsoftl]

/-- Witness for `set_rank_scores` at a concrete one-query array. -/
theorem set_rank_scores_witness :
    (set_rank (fun x y => x.sum - y.sum) (fun _ => 1)
      (logit_scale (fun _ => 1)) wdocs).length = wdocs.length ∧
    ∀ i (hi : i < wdocs.length)
      (hi2 : i < (set_rank (fun x y => x.sum - y.sum) (fun _ => 1)
        (logit_scale (fun _ => 1)) wdocs).length),
      ∀ c ∈ ((set_rank (fun x y => x.sum - y.sum) (fun _ => 1)
          (logit_scale (fun _ => 1)) wdocs).get ⟨i, hi2⟩).matches',
        ∃ j, ∃ hj : j < (wdocs.get ⟨i, hi⟩).matches'.length,
          c.id = ((wdocs.get ⟨i, hi⟩).matches'.get ⟨j, hj⟩).id ∧
          c.scores.lookup "clip_score_cosine" =
            some ⟨1 - (fun x y => x.sum - y.sum) (wdocs.get ⟨i, hi⟩).emb
              (((wdocs.get ⟨i, hi⟩).matches'.get ⟨j, hj⟩).emb.getD []), "cosine"⟩ ∧
          c.scores.lookup "clip_score" =
            some ⟨(numpy_softmax (fun _ => 1) ((wdocs.get ⟨i, hi⟩).matches'.map
                (fun m => logit_scale (fun _ => 1) *
                  (1 - (fun x y => x.sum - y.sum) (wdocs.get ⟨i, hi⟩).emb
                    (m.emb.getD []))))).getD j 0,
              "softmax"⟩ :=
  ⟨set_rank_length (fun x y => x.sum - y.sum) (fun _ => 1) (logit_scale (fun _ => 1)) wdocs,
    set_rank_scores (fun x y => x.sum - y.sum) (fun _ => 1) wdocs (by unfold embPresent; decide)⟩

/-- Claim C4: the tokenizer dispatches by the model-family tables (which are
disjoint in the real registry): a CN-CLIP name is tokenized with context
length 52 ignoring the caller-supplied `context_length` and `truncate`; a
multilingual name goes to the transformers tokenizer with the supplied
`context_length` as `max_length` and truncation always enabled; any other
name goes to the SimpleTokenizer path with the supplied `context_length` and
`truncate`. -/
theorem tokenizer_dispatch (E : TokEnv) (hd : ∀ n ∈ E.mling, n ∉ E.cncl)
    (name : String) (texts : List String) (cl : Nat) (truncate : Bool) :
    (name ∈ E.cncl → tokenizerCall E name texts cl truncate = .ok (cnTokenize E 52 texts)) ∧
    (name ∈ E.mling → tokenizerCall E name texts cl truncate = .ok (hfTokenize E cl texts)) ∧
    (name ∉ E.mling → name ∉ E.cncl →
      tokenizerCall E name texts cl truncate = simpleTokenize E cl truncate texts) := by
  refine ⟨fun hc => ?_, fun hm => ?_, fun hm hc => ?_⟩
  · have hnm : name ∉ E.mling := fun hm => hd name hm hc
    simp [tokenizerCall, tokenizeAux, hc, hnm]
  · have hnc : name ∉ E.cncl := hd name hm
    simp [tokenizerCall, tokenizeAux, hm, hnc]
  · simp [tokenizerCall, tokenizeAux, hm, hc]

/-- Concrete tokenizer environment for the dispatch witness. -/
def E4 : TokEnv :=
  { mling := ["m"], cncl := ["c"], hfEnc := fun _ => [3], padId := 1,
    cnEnc := fun _ => [4], cnSot := 101, cnEot := 102,
    enc := fun _ => [5], sot := 1, eot := 2 }

/-- Witness for `tokenizer_dispatch`: a CN-CLIP name ignores the supplied
context length and truncate flag. -/
theorem tokenizer_dispatch_witness :
    tokenizerCall E4 "c" ["hi"] 7 false = .ok (cnTokenize E4 52 ["hi"]) :=
  (tokenizer_dispatch E4 (by decide) "c" ["hi"] 7 false).1 (by decide)

/-- Concrete tokenizer environment exhibiting the multilingual shape bug:
the two texts tokenize to 3 and 5 ids. -/
def E2 : TokEnv :=
  { mling := ["M-CLIP"], cncl := [], hfEnc := fun t => List.replicate t.length 9,
    padId := 1, cnEnc := fun _ => [], cnSot := 0, cnEot := 0,
    enc := fun _ => [], sot := 0, eot := 0 }

/-- Claim C2 fails on the multilingual path: with `context_length = 77`, a
batch of two texts tokenizing to 3 and 5 ids comes back with rows of length
5 (the longest sequence in the batch), not 77, contradicting the claimed
fixed `[batch size, context_length]` shape (and the `__call__` docstring). -/
theorem tokenizer_shape_bug :
    tokenizerCall E2 "M-CLIP" ["aaa", "aaaaa"] 77 true =
      .ok (hfTokenize E2 77 ["aaa", "aaaaa"]) ∧
    (hfTokenize E2 77 ["aaa", "aaaaa"]).input_ids.map List.length = [5, 5] ∧
    (hfTokenize E2 77 ["aaa", "aaaaa"]).attention_mask.map List.length = [5, 5] ∧
    (5 : Nat) ≠ 77 := by decide

/-- The truncated row the SimpleTokenizer path produces for an overlong
token sequence: cut to `cl` with the last kept token replaced by `eot`. -/
def truncRow (eot cl : Nat) (tokens : List Nat) : List Nat :=
  if cl < tokens.length then (tokens.take cl).dropLast ++ [eot] else tokens

/-- Some text's wrapped token sequence exceeds the context length. -/
def simpleTooLong (E : TokEnv) (cl : Nat) (texts : List String) : Prop :=
  ∃ t ∈ texts, cl < ([E.sot] ++ E.enc t ++ [E.eot]).length

theorem simpleRow_err (eot cl : Nat) (tokens : List Nat) (h : cl < tokens.length) :
    simpleRow eot cl false tokens = .error .runtimeError := by
  unfold simpleRow
  simp [h]

theorem simpleRow_short (eot cl : Nat) (truncate : Bool) (tokens : List Nat)
    (h : ¬ cl < tokens.length) : simpleRow eot cl truncate tokens = .ok tokens := by
  unfold simpleRow
  simp [h]

theorem simpleRow_true_ok (eot cl : Nat) (tokens : List Nat) (hcl : 1 ≤ cl)
    (hne : tokens ≠ []) :
    simpleRow eot cl true tokens = .ok (truncRow eot cl tokens) := by
  unfold simpleRow truncRow
  by_cases h : cl < tokens.length
  · have hcut : (tokens.take cl).isEmpty = false := by
      rcases tokens with _ | ⟨a, ts⟩
      · exact absurd rfl hne
      · cases cl with
        | zero => exact absurd hcl (by omega)
        | succ n => rfl
    simp [h, hcut]
  · simp [h]

theorem simpleRows_ok (eot cl : Nat) (truncate : Bool) (g : List Nat → List Nat) :
    ∀ rows : List (List Nat), (∀ r ∈ rows, simpleRow eot cl truncate r = .ok (g r)) →
      simpleRows eot cl truncate rows = .ok (rows.map g) := by
  intro rows
  induction rows with
  | nil => intro _; rfl
  | cons a rest ih =>
    intro h
    unfold simpleRows
    rw [h a (List.mem_cons_self ..), ih (fun r hr => h r (List.mem_cons_of_mem _ hr))]
    rfl

theorem simpleRows_first_err (eot cl : Nat) :
    ∀ rows : List (List Nat), (∃ r ∈ rows, cl < r.length) →
      simpleRows eot cl false rows = .error .runtimeError := by
  intro rows
  induction rows with
  | nil => rintro ⟨r, hr, _⟩; cases hr
  | cons a rest ih =>
    rintro ⟨r, hr, hlen⟩
    unfold simpleRows
    by_cases ha : cl < a.length
    · rw [simpleRow_err eot cl a ha]
    · have hmem : r ∈ rest := by
        rcases List.mem_cons.mp hr with h1 | h1
        · subst h1; exact absurd hlen ha
        · exact h1
      rw [simpleRow_short eot cl false a ha, ih ⟨r, hmem, hlen⟩]

/-- Claim C9 (amended to require a positive context length): on the
SimpleTokenizer path, a `RuntimeError` is raised exactly when `truncate` is
off and some text's wrapped token sequence is longer than the context
length; otherwise — for context length at least 1 — the call succeeds and
every overlong sequence is cut to the context length with its last kept
token replaced by the end-of-text token (then zero-padded, with the
attention mask marking the kept tokens). -/
theorem simple_tokenize_truncation (E : TokEnv) (cl : Nat) (truncate : Bool)
    (texts : List String) (hcl : 1 ≤ cl) :
    (truncate = false ∧ simpleTooLong E cl texts →
      simpleTokenize E cl truncate texts = .error .runtimeError) ∧
    (¬(truncate = false ∧ simpleTooLong E cl texts) →
      simpleTokenize E cl truncate texts = .ok
        { input_ids := texts.map (fun t =>
            pad0 cl (truncRow E.eot cl ([E.sot] ++ E.enc t ++ [E.eot])))
          attention_mask := texts.map (fun t =>
            mask1 cl (truncRow E.eot cl ([E.sot] ++ E.enc t ++ [E.eot]))) }) := by
  constructor
  · rintro ⟨ht, t, htm, hlen⟩
    subst ht
    simp only [simpleTokenize]
    rw [simpleRows_first_err E.eot cl (texts.map (fun t => [E.sot] ++ E.enc t ++ [E.eot]))
      ⟨_, List.mem_map_of_mem _ htm, hlen⟩]
  · intro hn
    simp only [simpleTokenize]
    have hrows : simpleRows E.eot cl truncate
        (texts.map (fun t => [E.sot] ++ E.enc t ++ [E.eot])) =
        .ok ((texts.map (fun t => [E.sot] ++ E.enc t ++ [E.eot])).map (truncRow E.eot cl)) := by
      apply simpleRows_ok
      intro r hr
      obtain ⟨t, htm, rfl⟩ := List.mem_map.mp hr
      cases truncate with
      | true => exact simpleRow_true_ok E.eot cl _ hcl (by simp)
      | false =>
        have hshort : ¬ cl < ([E.sot] ++ E.enc t ++ [E.eot]).length := by
          intro hc
          exact hn ⟨rfl, t, htm, hc⟩
        rw [simpleRow_short _ _ _ _ hshort]
        unfold truncRow
        rw [if_neg hshort]
    rw [hrows]
    simp only [List.map_map]
    rfl

/-- Concrete tokenizer environment for the truncation claim: every text
tokenizes to the wrapped pair `[1, 2]`. -/
def E9 : TokEnv :=
  { mling := [], cncl := [], hfEnc := fun _ => [], padId := 0,
    cnEnc := fun _ => [], cnSot := 0, cnEot := 0,
    enc := fun _ => [], sot := 1, eot := 2 }

/-- Witness for `simple_tokenize_truncation`: context length 1 with
truncation on cuts the two-token row `[1, 2]` down to `[2]`. -/
theorem simple_tokenize_truncation_witness :
    (true = false ∧ simpleTooLong E9 1 ["x"] →
      simpleTokenize E9 1 true ["x"] = .error .runtimeError) ∧
    (¬(true = false ∧ simpleTooLong E9 1 ["x"]) →
      simpleTokenize E9 1 true ["x"] = .ok
        { input_ids := ["x"].map (fun t =>
            pad0 1 (truncRow E9.eot 1 ([E9.sot] ++ E9.enc t ++ [E9.eot])))
          attention_mask := ["x"].map (fun t =>
            mask1 1 (truncRow E9.eot 1 ([E9.sot] ++ E9.enc t ++ [E9.eot]))) }) :=
  simple_tokenize_truncation E9 1 true ["x"] (by decide)

/-- Counterexample to claim C9 as stated: at `context_length = 0` with
`truncate = True`, the truncation branch runs `tokens[-1] = eot_token` on an
empty list and raises an `IndexError` instead of returning a truncated row,
so "no error is raised" fails there. -/
theorem simple_tokenize_cl0_indexError :
    simpleTokenize E9 0 true ["x"] = .error .indexError ∧
    ∀ o : TokOut, simpleTokenize E9 0 true ["x"] ≠ .ok o := by
  refine ⟨by decide, ?_⟩
  intro o h
  rw [show simpleTokenize E9 0 true ["x"] = .error .indexError from by decide] at h
  exact Except.noConfusion h

end ClipServer
